import Mathlib

/-
Verification of the Download-Tidy core pipeline (scan, classify, plan,
execute).  The definitions below are shallow embeddings of the TypeScript
source: JavaScript strings are modelled at the character-list level,
JavaScript plain objects used as string-keyed records are modelled as
association lists with overwrite-on-assign semantics, and the executor's
interaction with the File System Access API is modelled as an explicit
event trace with an abstract per-file write-failure environment.
-/

namespace DownloadTidy

/-! JS string primitives.

The source computes extensions with
  entry.name.split('.').pop()?.toLowerCase() || ''
(src/App.tsx line 50, line 429, line 942; src/unnamed/part_000 line 147).
We model JS String.prototype.split('.') on character lists, keeping empty
pieces exactly as JS does, and ASCII lower-casing. -/

/-- ASCII lower-casing of one character, as toLowerCase acts on the
characters appearing in this development. -/
def jsLower (c : Char) : Char :=
  if 'A' ≤ c ∧ c ≤ 'Z' then Char.ofNat (c.toNat + 32) else c

/-- JS s.split('.') on a character list: splits at every '.', keeping
empty pieces; the empty string yields one empty piece. -/
def splitDot : List Char → List (List Char)
  | [] => [[]]
  | c :: cs =>
    match splitDot cs with
    | [] => [[]]
    | p :: ps => if c = '.' then [] :: p :: ps else (c :: p) :: ps

/-- Embedding of name.split('.').pop()?.toLowerCase() || '' from the
source.  split never yields an empty array, so pop returns the last
piece; the || '' branch only normalises an empty pop result. -/
def jsExtension (s : String) : String :=
  ⟨((splitDot s.data).getLastD []).map jsLower⟩

/-- Characters after the last '.' of a name (the specification's wording
for what the extension should be, before lower-casing). -/
def afterLastDot (l : List Char) : List Char :=
  (l.reverse.takeWhile (fun c => c ≠ '.')).reverse

/-! Categories.  FileCategory is a TS string enum; at runtime category
values are plain strings, and the oracle path can inject strings outside
the enum (no validation happens in geminiService), so categories are
modelled as String with the closed set listed explicitly. -/

/-- The closed Category set: the runtime string values of the
FileCategory enum (src/unnamed/part_000 lines 1-11). -/
def closedCategories : List String :=
  ["Documents", "Images", "Videos", "Archives", "Installers",
   "Code", "Audio", "Unknown", "Junk"]

/-- Runtime value of FileCategory.UNKNOWN. -/
def unknownCat : String := "Unknown"

/-! JS string-keyed records (plain objects used as maps). -/

/-- Lookup in an association list modelling a JS object property read;
none models undefined. -/
def lookupStr : List (String × String) → String → Option String
  | [], _ => none
  | (k, v) :: m, key => if key = k then some v else lookupStr m key

/-- JS property assignment m[k] = v: the new binding shadows any older
binding of k, since lookupStr returns the most recent binding first.
The code only ever reads these maps by key, so this models property
assignment for every observation made of them. -/
def recSet (m : List (String × String)) (k v : String) : List (String × String) :=
  (k, v) :: m

/-- The JS expression a || b where a is a possibly-undefined string
property: undefined and the empty string are falsy. -/
def jsOrS (a : Option String) (b : String) : String :=
  match a with
  | some s => if s = "" then b else s
  | none => b

/-! Embedding of geminiService.ts (src/App.tsx lines 853-947).
categorizeFiles issues one batched request; the abstract environment is
the oracle's response, which can be a thrown error, a missing text body,
text that fails JSON.parse, JSON that is not an array, or an array of
duck-typed items whose fileName and category fields may be absent or
empty (both falsy, modelled as the empty string). -/

/-- One parsed element of the oracle's JSON array.  An absent field and
an empty-string field are both falsy in the source's guard, so both are
modelled as the empty string. -/
structure OracleItem where
  fileName : String
  category : String
deriving DecidableEq, Repr

/-- Outcome of the single batched oracle call, as distinguished by the
control flow of categorizeFiles. -/
inductive OracleResp where
  | failure
  | noText
  | badJson
  | nonArray
  | items (l : List OracleItem)
deriving DecidableEq, Repr

/-- The static extension-to-category fallback table of
fallbackCategorization (src/App.tsx lines 931-939). -/
def fallbackTable : List (String × String) :=
  [("pdf", "Documents"), ("docx", "Documents"), ("txt", "Documents"),
   ("jpg", "Images"), ("png", "Images"), ("gif", "Images"), ("svg", "Images"),
   ("mp4", "Videos"), ("mov", "Videos"), ("mkv", "Videos"),
   ("zip", "Archives"), ("rar", "Archives"), ("tar", "Archives"),
   ("exe", "Installers"), ("dmg", "Installers"), ("pkg", "Installers"),
   ("js", "Code"), ("ts", "Code"), ("py", "Code"), ("html", "Code"),
   ("mp3", "Audio"), ("wav", "Audio"), ("flac", "Audio")]

/-- Fallback category of one name: extensions[ext] || UNKNOWN with
ext = name.split('.').pop()?.toLowerCase() || '' (src/App.tsx lines
941-943).  Every stored table value is nonempty, so truthiness of the
property read coincides with its presence. -/
def fallbackFor (name : String) : String :=
  match lookupStr fallbackTable (jsExtension name) with
  | some c => c
  | none => unknownCat

/-- Embedding of fallbackCategorization: builds the mapping by assigning
each name its fallback category in order (src/App.tsx lines 929-947). -/
def fallbackCategorization (names : List String) : List (String × String) :=
  names.foldl (fun m n => recSet m n (fallbackFor n)) []

/-- Processing of a parsed oracle array: each item with truthy fileName
and truthy category is stored (src/App.tsx lines 902-908).  No check
against the closed Category set is performed. -/
def applyItems (l : List OracleItem) : List (String × String) :=
  l.foldl
    (fun m it =>
      if it.fileName ≠ "" ∧ it.category ≠ "" then recSet m it.fileName it.category
      else m)
    []

/-- The completion loop of categorizeFiles: every requested name whose
entry is missing or falsy receives its fallback category (src/App.tsx
lines 913-919). -/
def fillMissing (m : List (String × String)) (names : List String) :
    List (String × String) :=
  names.foldl
    (fun m n =>
      match lookupStr m n with
      | some c => if c = "" then recSet m n (fallbackFor n) else m
      | none => recSet m n (fallbackFor n))
    m

/-- Embedding of categorizeFiles (src/App.tsx lines 857-926): a thrown
request error or a missing text body short-circuits to the pure fallback
mapping; a JSON parse failure or a non-array body leaves the partial
result empty; a parsed array is processed item by item; finally every
requested name missing from the result is filled from the fallback
table. -/
def categorizeFiles (resp : OracleResp) (names : List String) :
    List (String × String) :=
  match resp with
  | .failure => fallbackCategorization names
  | .noText => fallbackCategorization names
  | .badJson => fillMissing [] names
  | .nonArray => fillMissing [] names
  | .items l => fillMissing (applyItems l) names

/-- The usable oracle answer for one name: the stored nonempty category
of a well-shaped response item carrying that name, if any. -/
def usableOracleAnswer (resp : OracleResp) (name : String) : Option String :=
  match resp with
  | .items l =>
    match lookupStr (applyItems l) name with
    | some c => if c = "" then none else some c
    | none => none
  | _ => none

/-! File records.  part_000's FileMetadata carries a root-relative path;
the App.tsx variants' records do not (their scan is flat). -/

/-- FileMetadata as built by performScan (src/unnamed/part_000 lines
142-151): name, size, lastModified, extension, suggestedCategory and the
slash-joined relative path. -/
structure FileMetadata where
  name : String
  size : Nat
  lastModified : Nat
  extension : String
  suggestedCategory : String
  path : String
deriving DecidableEq, Repr

/-- FileMetadata as built by the App.tsx scanDirectory variants
(src/App.tsx lines 45-53 and 424-432): no path field. -/
structure FileEntry where
  name : String
  size : Nat
  lastModified : Nat
  extension : String
  suggestedCategory : String
deriving DecidableEq, Repr

/-! Classifier.  Two distinct classification sites exist. -/

/-- Category assigned by performScan (src/unnamed/part_000 lines
176-179): starting from UNKNOWN, the oracle mapping's entry overwrites
it when truthy.  Custom rules play no part here. -/
def performScanCategory (cats : List (String × String)) (name : String) : String :=
  match lookupStr cats name with
  | some c => if c = "" then unknownCat else c
  | none => unknownCat

/-- Category assigned by the second scanDirectory variant (src/App.tsx
lines 442-448): rule || categories[f.name] || FileCategory.UNKNOWN,
where the rule is looked up by the file's stored extension. -/
def scanDirCategory (rules cats : List (String × String))
    (name ext : String) : String :=
  jsOrS (lookupStr rules ext) (jsOrS (lookupStr cats name) unknownCat)

/-! Directory Walker. -/

/-- A node of the scanned directory tree: the abstract environment
behind FileSystemDirectoryHandle.values(). -/
inductive FSEntry where
  | file (name : String) (size : Nat) (lastModified : Nat)
  | dir (name : String) (entries : List FSEntry)

/-- Name of a tree node, as entry.name reads it. -/
def entryName : FSEntry → String
  | .file n _ _ => n
  | .dir n _ => n

/-- Path extension step of performScan (src/unnamed/part_000 lines 150
and 153): currentPath ? currentPath + '/' + name : name. -/
def joinPath (cur name : String) : String :=
  if cur = "" then name else cur ++ "/" ++ name

/-- Embedding of the recursive scan closure of performScan
(src/unnamed/part_000 lines 136-156): each entry whose name is in the
exclusion set is skipped before its kind is examined; files become
records with extension computed at discovery and category UNKNOWN;
directories are recursed into with the extended path. -/
def scanList (ex : List String) (cur : String) : List FSEntry → List FileMetadata
  | [] => []
  | .file n sz lm :: es =>
    (if ex.contains n then [] else
      [⟨n, sz, lm, jsExtension n, unknownCat, joinPath cur n⟩]) ++
    scanList ex cur es
  | .dir n sub :: es =>
    (if ex.contains n then [] else scanList ex (joinPath cur n) sub) ++
    scanList ex cur es

/-- Embedding of the App.tsx scanDirectory variants (src/App.tsx lines
36-56 and 416-434): a single pass over the root's own entries keeping
only files; directories are not entered and no exclusion set exists. -/
def scanDirectoryModel (entries : List FSEntry) : List FileEntry :=
  entries.filterMap fun e =>
    match e with
    | .file n sz lm => some ⟨n, sz, lm, jsExtension n, unknownCat⟩
    | .dir _ _ => none

/-- A file reachable from a list of root entries by recursive traversal
that never passes through an entry whose name is excluded; the list of
directory names traversed is recorded. -/
inductive ReachableFile (ex : List String) :
    List FSEntry → List String → String → Nat → Nat → Prop where
  | here {es n sz lm} :
      FSEntry.file n sz lm ∈ es → ex.contains n = false →
      ReachableFile ex es [] n sz lm
  | there {es d sub p n sz lm} :
      FSEntry.dir d sub ∈ es → ex.contains d = false →
      ReachableFile ex sub p n sz lm →
      ReachableFile ex es (d :: p) n sz lm

/-- Path a scanned file acquires when the traversal starts at cur and
passes through the named directories. -/
def pathOf (cur : String) (dirs : List String) (name : String) : String :=
  joinPath (dirs.foldl joinPath cur) name

/-! Duplicate Detector (src/unnamed/part_000 lines 161-172). -/

/-- DuplicateGroup as pushed by performScan: id derived from the shared
size, member records, resolved flag initialised to false. -/
structure DuplicateGroup where
  id : String
  files : List FileMetadata
  resolved : Bool
deriving DecidableEq, Repr

/-- Embedding of the grouping pass: files are bucketed by exact size
(each bucket keeping input order), Object.entries enumerates the
integer-like size keys in ascending numeric order, and only buckets
with at least two members become groups. -/
def duplicateGroups (files : List FileMetadata) : List DuplicateGroup :=
  ((files.map (fun f => f.size)).dedup.insertionSort (· ≤ ·)).filterMap
    fun s =>
      let g := files.filter (fun f => f.size = s)
      if 1 < g.length then some ⟨"size-" ++ toString s, g, false⟩ else none

/-! Move Planner. -/

/-- Plan of handleOrganize (src/unnamed/part_000 line 209): the files
that are both selected and not categorised UNKNOWN, in input order. -/
def organizeTargets (files : List FileMetadata) (sel : List String) :
    List FileMetadata :=
  files.filter fun f => sel.contains f.name ∧ f.suggestedCategory ≠ unknownCat

/-- Plan of executeExport (src/App.tsx line 509): the selected files, in
input order, with no condition on their category. -/
def exportPlan (files : List FileEntry) (sel : List String) : List FileEntry :=
  files.filter fun f => sel.contains f.name

/-! Executor (src/unnamed/part_000 lines 204-237).  Each operation
performs, in order: category-directory creation, source read,
destination creation, destination write (the injected failure point),
destination close, and source deletion by walking the stored path's
directory segments.  The surrounding try/catch means a thrown write
aborts the loop. -/

/-- Primitive file-system events emitted while executing one batch. -/
inductive Ev where
  | createDir (cat : String)
  | readSource (name : String)
  | createDest (cat name : String)
  | writeDest (cat name : String) (ok : Bool)
  | closeDest (cat name : String)
  | deleteSource (path name : String)
deriving DecidableEq, Repr

/-- Abstract state of the two storage roots: paths present at the
source and (category, name) pairs fully written at the destination. -/
structure FS where
  source : List String
  dest : List (String × String)
deriving DecidableEq, Repr

/-- One planned move: the file's name, stored relative path and target
category. -/
structure MoveOp where
  name : String
  path : String
  category : String
deriving DecidableEq, Repr

/-- Math.round((a / b) * 100) on the exact rational a/b: floor of
100*a/b + 1/2, i.e. round half up, which is the value JS computes at
every point reached by these loops. -/
def jsRound100 (a b : Nat) : Nat := (200 * a + b) / (2 * b)

/-- Events emitted while executing one operation, given whether its
destination write fails: a failing write throws, so the close and the
source deletion are not reached. -/
def opTrace (failing : Bool) (op : MoveOp) : List Ev :=
  [.createDir op.category, .readSource op.name,
   .createDest op.category op.name, .writeDest op.category op.name (!failing)] ++
  if failing then [] else
   [.closeDest op.category op.name, .deleteSource op.path op.name]

/-- Observable outcome of one batch: final storage state, full event
trace, count of moved files, emitted progress values, and whether the
loop was aborted by a thrown error. -/
structure ExecResult where
  fs : FS
  trace : List Ev
  moved : Nat
  progress : List Nat
  failed : Bool
deriving DecidableEq, Repr

/-- The for-loop of handleOrganize (src/unnamed/part_000 lines 212-229)
under a per-name write-failure environment fw: on success the source
path is removed, the destination gains the file, moved increments and a
progress update is emitted; a failing write throws out of the loop. -/
def handleOrganizeExec (fw : String → Bool) (total : Nat) (fs : FS)
    (moved : Nat) : List MoveOp → ExecResult
  | [] => ⟨fs, [], moved, [], false⟩
  | op :: rest =>
    if fw op.name then
      ⟨fs, opTrace true op, moved, [], true⟩
    else
      let fs' : FS :=
        ⟨fs.source.erase op.path, fs.dest ++ [(op.category, op.name)]⟩
      let r := handleOrganizeExec fw total fs' (moved + 1) rest
      ⟨r.fs, opTrace false op ++ r.trace, r.moved,
        jsRound100 (moved + 1) total :: r.progress, r.failed⟩

/-- Execution of the full planned batch: total for the progress divisor
is targets.length (src/unnamed/part_000 line 228). -/
def handleOrganizeRun (fw : String → Bool) (fs : FS) (ops : List MoveOp) :
    ExecResult :=
  handleOrganizeExec fw ops.length fs 0 ops

/-- Trace discipline checked left to right: a source deletion for a name
is permitted only when a successful destination write for that name and
a subsequent close have already occurred. -/
def movedSafely (written closed : List String) : List Ev → Bool
  | [] => true
  | .writeDest _ n ok :: r =>
    movedSafely (if ok then n :: written else written) closed r
  | .closeDest _ n :: r =>
    movedSafely written (if written.contains n then n :: closed else closed) r
  | .deleteSource _ n :: r => closed.contains n && movedSafely written closed r
  | _ :: r => movedSafely written closed r

/-- Progress updates emitted inside the loop of organizeFiles
(src/App.tsx lines 98-118): files with category UNKNOWN are skipped but
the divisor is the full file count, not the planned count. -/
def organizeLoopProgress (total : Nat) (count : Nat) :
    List FileEntry → List Nat
  | [] => []
  | f :: rest =>
    if f.suggestedCategory = unknownCat then organizeLoopProgress total count rest
    else jsRound100 (count + 1) total :: organizeLoopProgress total (count + 1) rest

/-- Full progress sequence of a failure-free organizeFiles run: the
in-loop updates followed by the unconditional progress = 100 of line
120. -/
def organizeProgressTrace (files : List FileEntry) : List Nat :=
  organizeLoopProgress files.length 0 files ++ [100]

/-- Resolution performed by the completion loop of categorizeFiles on
one name: a missing or falsy entry is replaced by the fallback
category. -/
def resolveEntry (m : List (String × String)) (n : String) : String :=
  match lookupStr m n with
  | some c => if c = "" then fallbackFor n else c
  | none => fallbackFor n

/-- Names read from the source during a batch, in trace order: the
operations actually attempted. -/
def readSourceNames (t : List Ev) : List String :=
  t.filterMap fun e =>
    match e with
    | .readSource n => some n
    | _ => none

/-! Lemmas about splitDot, supporting claim C3. -/

theorem splitDot_ne_nil : ∀ l : List Char, splitDot l ≠ []
  | [] => by simp [splitDot]
  | c :: cs => by
    have h := splitDot_ne_nil cs
    unfold splitDot
    cases hs : splitDot cs with
    | nil => exact absurd hs h
    | cons p ps =>
      by_cases hc : c = '.' <;> simp [hc]

theorem splitDot_no_dot : ∀ {l : List Char}, '.' ∉ l → splitDot l = [l]
  | [], _ => rfl
  | c :: cs, h => by
    have hc : c ≠ '.' := fun e => h (e ▸ List.mem_cons_self c cs)
    have hcs : '.' ∉ cs := fun m => h (List.mem_cons_of_mem c m)
    have ih := splitDot_no_dot hcs
    unfold splitDot
    rw [ih]
    simp [hc]

theorem two_le_splitDot_of_mem : ∀ {l : List Char}, '.' ∈ l →
    2 ≤ (splitDot l).length
  | c :: cs, h => by
    unfold splitDot
    cases hs : splitDot cs with
    | nil => exact absurd hs (splitDot_ne_nil cs)
    | cons p ps =>
      by_cases hc : c = '.'
      · simp [hc]
      · rcases List.mem_cons.mp h with h1 | h2
        · exact absurd h1.symm hc
        · have := two_le_splitDot_of_mem h2
          rw [hs] at this
          simpa [hc] using this

theorem getLastD_of_ne_nil {α : Type} : ∀ (l : List α), l ≠ [] →
    ∀ a b : α, l.getLastD a = l.getLastD b
  | [], h, _, _ => absurd rfl h
  | x :: xs, _, a, b => by rw [List.getLastD_cons, List.getLastD_cons]

/-- For a name containing a dot, the piece popped by split('.') is
exactly the suffix after the last dot: the name decomposes as
pre ++ dot :: suf with no dot in suf and the popped piece equal to
suf. -/
theorem splitDot_getLastD_eq_suffix : ∀ {l : List Char}, '.' ∈ l →
    ∃ pre suf, l = pre ++ '.' :: suf ∧ '.' ∉ suf ∧
      (splitDot l).getLastD [] = suf
  | c :: cs, h => by
    by_cases hcs : '.' ∈ cs
    · obtain ⟨pre, suf, hdec, hnd, hlast⟩ := splitDot_getLastD_eq_suffix hcs
      refine ⟨c :: pre, suf, by rw [hdec]; rfl, hnd, ?_⟩
      have hlen := two_le_splitDot_of_mem hcs
      unfold splitDot
      cases hs : splitDot cs with
      | nil => exact absurd hs (splitDot_ne_nil cs)
      | cons p ps =>
        rw [hs] at hlast hlen
        have hps : ps ≠ [] := by
          intro e
          rw [e] at hlen
          exact absurd hlen (by norm_num)
        rw [List.getLastD_cons] at hlast
        show ((if c = '.' then [] :: p :: ps else (c :: p) :: ps).getLastD []) = suf
        by_cases hc : c = '.'
        · rw [if_pos hc, List.getLastD_cons, List.getLastD_cons]
          exact hlast
        · rw [if_neg hc, List.getLastD_cons,
            getLastD_of_ne_nil ps hps (c :: p) p]
          exact hlast
    · have hc : c = '.' := by
        rcases List.mem_cons.mp h with h1 | h2
        · exact h1.symm
        · exact absurd h2 hcs
      refine ⟨[], cs, by simp [hc], hcs, ?_⟩
      unfold splitDot
      rw [splitDot_no_dot hcs]
      simp [hc, List.getLastD_cons]

/-! Claim C2: plan exclusivity. -/

/-- C2 (corrected): the handleOrganize plan contains exactly the files
that are both selected and not categorised Unknown, while the
executeExport plan contains every selected file with no condition on its
category. -/
theorem C2_theorem :
    (∀ (files : List FileMetadata) (sel : List String) (f : FileMetadata),
      f ∈ organizeTargets files sel ↔
        f ∈ files ∧ sel.contains f.name = true ∧
          f.suggestedCategory ≠ unknownCat) ∧
    (∀ (files : List FileEntry) (sel : List String) (g : FileEntry),
      g ∈ exportPlan files sel ↔ g ∈ files ∧ sel.contains g.name = true) := by
  constructor
  · intro files sel f
    simp [organizeTargets, List.mem_filter, and_assoc]
  · intro files sel g
    simp [exportPlan, List.mem_filter]

/-- C2 counterexample: a file categorised Unknown that is in the
selection set is part of the executed move list of executeExport. -/
theorem C2_counterexample :
    (⟨"mystery.xyz", 5, 0, "xyz", "Unknown"⟩ : FileEntry) ∈
      exportPlan [⟨"mystery.xyz", 5, 0, "xyz", "Unknown"⟩] ["mystery.xyz"] ∧
    (FileEntry.suggestedCategory ⟨"mystery.xyz", 5, 0, "xyz", "Unknown"⟩) =
      unknownCat := by
  constructor
  · simp [exportPlan]
  · rfl

/-! Claim C3: extension computation. -/

/-- C3 (corrected): when the name contains a dot, the stored extension
is the lower-cased suffix after the last dot; when it contains no dot,
it is the lower-cased whole name, not the empty string. -/
theorem C3_theorem (s : String) :
    ('.' ∉ s.data → jsExtension s = ⟨s.data.map jsLower⟩) ∧
    ('.' ∈ s.data → ∃ pre suf, s.data = pre ++ '.' :: suf ∧ '.' ∉ suf ∧
      jsExtension s = ⟨suf.map jsLower⟩) := by
  constructor
  · intro h
    unfold jsExtension
    rw [splitDot_no_dot h]
    rfl
  · intro h
    obtain ⟨pre, suf, hdec, hnd, hlast⟩ := splitDot_getLastD_eq_suffix h
    exact ⟨pre, suf, hdec, hnd, by unfold jsExtension; rw [hlast]⟩

/-- C3 witness: the theorem evaluated at README (no dot: extension is
the lower-cased whole name) and at Report.PDF (extension pdf). -/
theorem C3_witness :
    (jsExtension "README" = ⟨"README".data.map jsLower⟩) ∧
    (∃ pre suf, "Report.PDF".data = pre ++ '.' :: suf ∧ '.' ∉ suf ∧
      jsExtension "Report.PDF" = ⟨suf.map jsLower⟩) :=
  ⟨( C3_theorem "README").1 (by decide),
   ( C3_theorem "Report.PDF").2 (by decide)⟩

/-- C3 counterexample: README contains no dot, yet its computed
extension is readme, not the empty string the claim requires. -/
theorem C3_counterexample :
    ('.' ∉ "README".data) ∧ jsExtension "README" = "readme" ∧
      ("readme" : String) ≠ "" := by
  refine ⟨by decide, by decide, by decide⟩

/-! Association-list lemmas for the JS record embedding. -/

theorem lookupStr_recSet_self (m : List (String × String)) (k v : String) :
    lookupStr (recSet m k v) k = some v := by
  simp [recSet, lookupStr]

theorem lookupStr_recSet_ne (m : List (String × String)) {k key : String}
    (v : String) (h : key ≠ k) :
    lookupStr (recSet m k v) key = lookupStr m key := by
  simp [recSet, lookupStr, h]

/-- Values stored in a record map: generic fact that a successful lookup
yields one of the stored values. -/
theorem lookupStr_mem_values {m : List (String × String)} {k c : String}
    (h : lookupStr m k = some c) : c ∈ m.map Prod.snd := by
  induction m with
  | nil => exact absurd h (by simp [lookupStr])
  | cons p m ih =>
    obtain ⟨a, b⟩ := p
    by_cases hk : k = a
    · simp [lookupStr, hk] at h
      simp [h]
    · simp [lookupStr, hk] at h
      exact List.mem_cons_of_mem _ (ih h)

theorem fallbackFor_ne_empty (name : String) : fallbackFor name ≠ "" := by
  unfold fallbackFor
  cases h : lookupStr fallbackTable (jsExtension name) with
  | none => simp [unknownCat]
  | some c =>
    have hv := lookupStr_mem_values h
    have : ∀ x ∈ fallbackTable.map Prod.snd, x ≠ "" := by decide
    exact this c hv

theorem resolveEntry_ne_empty (m : List (String × String)) (n : String) :
    resolveEntry m n ≠ "" := by
  unfold resolveEntry
  cases h : lookupStr m n with
  | none => exact fallbackFor_ne_empty n
  | some c =>
    by_cases hc : c = "" <;> simp [hc, fallbackFor_ne_empty n]

theorem resolveEntry_of_lookup {m : List (String × String)} {n v : String}
    (h : lookupStr m n = some v) (hv : v ≠ "") : resolveEntry m n = v := by
  unfold resolveEntry
  rw [h]
  simp [hv]

theorem fillMissing_lookup : ∀ (names : List String)
    (m : List (String × String)) (n : String),
    lookupStr (fillMissing m names) n =
      if n ∈ names then some (resolveEntry m n) else lookupStr m n := by
  intro names
  induction names with
  | nil => intro m n; simp [fillMissing]
  | cons n' rest ih =>
    intro m n
    have hstep : fillMissing m (n' :: rest) =
        fillMissing
          (match lookupStr m n' with
           | some c => if c = "" then recSet m n' (fallbackFor n') else m
           | none => recSet m n' (fallbackFor n')) rest := by
      simp [fillMissing]
    rw [hstep]
    by_cases hn : n = n'
    · subst hn
      have hlook :
          lookupStr
            (match lookupStr m n with
             | some c => if c = "" then recSet m n (fallbackFor n) else m
             | none => recSet m n (fallbackFor n)) n = some (resolveEntry m n) := by
        cases h : lookupStr m n with
        | none => simp [lookupStr_recSet_self, resolveEntry, h]
        | some c =>
          by_cases hc : c = "" <;>
            simp [hc, lookupStr_recSet_self, resolveEntry, h]
      rw [ih]
      by_cases hmem : n ∈ rest
      · have heq := resolveEntry_of_lookup hlook (resolveEntry_ne_empty m n)
        simp [hmem, heq]
      · simp [hmem, hlook]
    · have hlookne :
          lookupStr
            (match lookupStr m n' with
             | some c => if c = "" then recSet m n' (fallbackFor n') else m
             | none => recSet m n' (fallbackFor n')) n = lookupStr m n := by
        cases h : lookupStr m n' with
        | none => simp [lookupStr_recSet_ne m _ hn]
        | some c =>
          by_cases hc : c = "" <;> simp [hc, lookupStr_recSet_ne m _ hn]
      rw [ih]
      have hres : resolveEntry
          (match lookupStr m n' with
           | some c => if c = "" then recSet m n' (fallbackFor n') else m
           | none => recSet m n' (fallbackFor n')) n = resolveEntry m n := by
        unfold resolveEntry
        rw [hlookne]
      by_cases hmem : n ∈ rest
      · simp [hmem, hn, hres]
      · simp [hmem, hn, hlookne]

theorem fallbackCategorization_lookup : ∀ (names : List String) (n : String),
    lookupStr (fallbackCategorization names) n =
      if n ∈ names then some (fallbackFor n) else none := by
  have gen : ∀ (names : List String) (m : List (String × String)) (n : String),
      lookupStr (names.foldl (fun m n => recSet m n (fallbackFor n)) m) n =
        if n ∈ names then some (fallbackFor n) else lookupStr m n := by
    intro names
    induction names with
    | nil => intro m n; simp
    | cons n' rest ih =>
      intro m n
      simp only [List.foldl_cons]
      rw [ih]
      by_cases hn : n = n'
      · subst hn
        by_cases hmem : n ∈ rest <;>
          simp [hmem, lookupStr_recSet_self]
      · by_cases hmem : n ∈ rest <;>
          simp [hmem, hn, lookupStr_recSet_ne m _ hn]
  intro names n
  unfold fallbackCategorization
  rw [gen]
  simp [lookupStr]

/-- Every category stored by the item-processing pass is nonempty. -/
theorem applyItems_ne_empty : ∀ (l : List OracleItem) (n c : String),
    lookupStr (applyItems l) n = some c → c ≠ "" := by
  have gen : ∀ (l : List OracleItem) (m : List (String × String)),
      (∀ n c, lookupStr m n = some c → c ≠ "") →
      ∀ n c, lookupStr (l.foldl
          (fun m it =>
            if it.fileName ≠ "" ∧ it.category ≠ "" then
              recSet m it.fileName it.category
            else m) m) n = some c → c ≠ "" := by
    intro l
    induction l with
    | nil => intro m hm n c h; exact hm n c h
    | cons it rest ih =>
      intro m hm n c
      simp only [List.foldl_cons]
      by_cases hit : it.fileName ≠ "" ∧ it.category ≠ ""
      · rw [if_pos hit]
        refine ih _ ?_ n c
        intro n' c' h'
        by_cases hn : n' = it.fileName
        · subst hn
          rw [lookupStr_recSet_self] at h'
          cases h'
          exact hit.2
        · rw [lookupStr_recSet_ne m _ hn] at h'
          exact hm n' c' h'
      · rw [if_neg hit]
        exact ih m hm n c
  intro l n c h
  exact gen l [] (by intro n c h; exact absurd h (by simp [lookupStr])) n c h

/-- Main lookup characterisation of categorizeFiles: for every requested
name, the table holds the oracle's usable answer when there is one, and
the fallback category otherwise. -/
theorem categorizeFiles_lookup (resp : OracleResp) (names : List String)
    (name : String) (h : name ∈ names) :
    lookupStr (categorizeFiles resp names) name =
      some ((usableOracleAnswer resp name).getD (fallbackFor name)) := by
  cases resp with
  | failure =>
    rw [show categorizeFiles .failure names =
      fallbackCategorization names from rfl, fallbackCategorization_lookup]
    simp [h, usableOracleAnswer]
  | noText =>
    rw [show categorizeFiles .noText names =
      fallbackCategorization names from rfl, fallbackCategorization_lookup]
    simp [h, usableOracleAnswer]
  | badJson =>
    rw [show categorizeFiles .badJson names = fillMissing [] names from rfl,
      fillMissing_lookup]
    simp [h, resolveEntry, lookupStr, usableOracleAnswer]
  | nonArray =>
    rw [show categorizeFiles .nonArray names = fillMissing [] names from rfl,
      fillMissing_lookup]
    simp [h, resolveEntry, lookupStr, usableOracleAnswer]
  | items l =>
    rw [show categorizeFiles (.items l) names =
      fillMissing (applyItems l) names from rfl, fillMissing_lookup]
    simp only [h, if_pos]
    have hu : usableOracleAnswer (.items l) name =
        match lookupStr (applyItems l) name with
        | some c => if c = "" then none else some c
        | none => none := rfl
    unfold resolveEntry
    rw [hu]
    cases hl : lookupStr (applyItems l) name with
    | none => simp
    | some c =>
      have hc : c ≠ "" := applyItems_ne_empty l name c hl
      simp [hc]

theorem usableOracleAnswer_items (l : List OracleItem) (name : String) :
    usableOracleAnswer (.items l) name =
      match lookupStr (applyItems l) name with
      | some c => if c = "" then none else some c
      | none => none := rfl

theorem usableOracleAnswer_ne_empty {resp : OracleResp} {name c : String}
    (h : usableOracleAnswer resp name = some c) : c ≠ "" := by
  intro hc
  subst hc
  cases resp with
  | items l =>
    rw [usableOracleAnswer_items] at h
    cases hl : lookupStr (applyItems l) name with
    | none => rw [hl] at h; exact Option.noConfusion h
    | some c' =>
      rw [hl] at h
      by_cases h' : c' = ""
      · simp [h'] at h
      · simp [h'] at h
  | failure => exact Option.noConfusion h
  | noText => exact Option.noConfusion h
  | badJson => exact Option.noConfusion h
  | nonArray => exact Option.noConfusion h

theorem usableGetD_ne_empty (resp : OracleResp) (name : String) :
    (usableOracleAnswer resp name).getD (fallbackFor name) ≠ "" := by
  cases h : usableOracleAnswer resp name with
  | none => simpa using fallbackFor_ne_empty name
  | some c => simpa using usableOracleAnswer_ne_empty h

/-! Claim C10: totality of the batched categorization mapping. -/

/-- C10 (confirmed): categorizeFiles returns an entry for every
requested name; a name without a usable oracle answer receives the
static table's category for its extension, and Unknown when its
extension is not in the table. -/
theorem C10_theorem (resp : OracleResp) (names : List String) (name : String)
    (h : name ∈ names) :
    lookupStr (categorizeFiles resp names) name =
      some ((usableOracleAnswer resp name).getD (fallbackFor name)) ∧
    (usableOracleAnswer resp name = none →
      lookupStr (categorizeFiles resp names) name = some (fallbackFor name)) ∧
    (lookupStr fallbackTable (jsExtension name) = none →
      fallbackFor name = unknownCat) := by
  refine ⟨categorizeFiles_lookup resp names name h, ?_, ?_⟩
  · intro hnone
    rw [categorizeFiles_lookup resp names name h, hnone]
    rfl
  · intro htab
    unfold fallbackFor
    rw [htab]

/-- C10 witness: evaluation at a concrete one-element request with no
usable oracle text. -/
theorem C10_witness :
    lookupStr (categorizeFiles OracleResp.noText ["x.zip"]) "x.zip" =
      some ((usableOracleAnswer OracleResp.noText "x.zip").getD
        (fallbackFor "x.zip")) ∧
    (usableOracleAnswer OracleResp.noText "x.zip" = none →
      lookupStr (categorizeFiles OracleResp.noText ["x.zip"]) "x.zip" =
        some (fallbackFor "x.zip")) ∧
    (lookupStr fallbackTable (jsExtension "x.zip") = none →
      fallbackFor "x.zip" = unknownCat) :=
  C10_theorem OracleResp.noText ["x.zip"] "x.zip" (by decide)

/-! Claim C6: oracle resilience. -/

/-- C6 (corrected): a thrown request error, a missing text body, a JSON
parse failure, a non-array body and a name absent from the parsed items
each fall through to the static fallback table, and the batch always
produces an answer for every requested name; the absorbed failure modes
never leave categorizeFiles.  (The accepted-verbatim out-of-set entry is
the counterexample.) -/
theorem C6_theorem (names : List String) (n : String) (h : n ∈ names) :
    lookupStr (categorizeFiles OracleResp.failure names) n =
      some (fallbackFor n) ∧
    lookupStr (categorizeFiles OracleResp.noText names) n =
      some (fallbackFor n) ∧
    lookupStr (categorizeFiles OracleResp.badJson names) n =
      some (fallbackFor n) ∧
    lookupStr (categorizeFiles OracleResp.nonArray names) n =
      some (fallbackFor n) ∧
    (∀ l : List OracleItem, lookupStr (applyItems l) n = none →
      lookupStr (categorizeFiles (OracleResp.items l) names) n =
        some (fallbackFor n)) ∧
    (∀ resp : OracleResp, ∃ c,
      lookupStr (categorizeFiles resp names) n = some c) := by
  refine ⟨?_, ?_, ?_, ?_, ?_, ?_⟩
  · rw [categorizeFiles_lookup _ names n h]; rfl
  · rw [categorizeFiles_lookup _ names n h]; rfl
  · rw [categorizeFiles_lookup _ names n h]; rfl
  · rw [categorizeFiles_lookup _ names n h]; rfl
  · intro l hl
    rw [categorizeFiles_lookup _ names n h]
    have : usableOracleAnswer (.items l) n = none := by
      rw [usableOracleAnswer_items, hl]
    rw [this]
    rfl
  · intro resp
    exact ⟨_, categorizeFiles_lookup resp names n h⟩

/-- C6 witness: the resilience facts evaluated at a concrete
one-element request. -/
theorem C6_witness :
    lookupStr (categorizeFiles OracleResp.failure ["a.mp3"]) "a.mp3" =
      some (fallbackFor "a.mp3") ∧
    lookupStr (categorizeFiles OracleResp.noText ["a.mp3"]) "a.mp3" =
      some (fallbackFor "a.mp3") ∧
    lookupStr (categorizeFiles OracleResp.badJson ["a.mp3"]) "a.mp3" =
      some (fallbackFor "a.mp3") ∧
    lookupStr (categorizeFiles OracleResp.nonArray ["a.mp3"]) "a.mp3" =
      some (fallbackFor "a.mp3") ∧
    (∀ l : List OracleItem, lookupStr (applyItems l) "a.mp3" = none →
      lookupStr (categorizeFiles (OracleResp.items l) ["a.mp3"]) "a.mp3" =
        some (fallbackFor "a.mp3")) ∧
    (∀ resp : OracleResp, ∃ c,
      lookupStr (categorizeFiles resp ["a.mp3"]) "a.mp3" = some c) :=
  C6_theorem ["a.mp3"] "a.mp3" (by decide)

/-- C6 counterexample: a response entry whose category value is outside
the closed Category set is accepted verbatim instead of being treated
as no answer; the fallback table would have said Archives. -/
theorem C6_counterexample :
    lookupStr (categorizeFiles (OracleResp.items [⟨"x.zip", "Banana"⟩])
      ["x.zip"]) "x.zip" = some "Banana" ∧
    "Banana" ∉ closedCategories ∧
    fallbackFor "x.zip" = "Archives" := by
  refine ⟨by decide, by decide, by decide⟩

/-! Claim C5: classifier precedence. -/

/-- C5 (corrected): in the App.tsx scanDirectory variant a nonempty
custom rule for the stored extension always wins, and with no rule the
category is the oracle's usable answer, else the fallback table's
entry, else Unknown; in part_000's performScan custom rules never
participate and the category is the oracle's usable answer with the
same fallback chain. -/
theorem C5_theorem :
    (∀ (rules cats : List (String × String)) (name ext r : String),
      lookupStr rules ext = some r → r ≠ "" →
      scanDirCategory rules cats name ext = r) ∧
    (∀ (rules : List (String × String)) (resp : OracleResp)
      (names : List String) (name : String), name ∈ names →
      lookupStr rules (jsExtension name) = none →
      scanDirCategory rules (categorizeFiles resp names) name
        (jsExtension name) =
        (usableOracleAnswer resp name).getD (fallbackFor name)) ∧
    (∀ (resp : OracleResp) (names : List String) (name : String),
      name ∈ names →
      performScanCategory (categorizeFiles resp names) name =
        (usableOracleAnswer resp name).getD (fallbackFor name)) := by
  refine ⟨?_, ?_, ?_⟩
  · intro rules cats name ext r h hr
    unfold scanDirCategory jsOrS
    rw [h]
    simp [hr]
  · intro rules resp names name hmem hrule
    unfold scanDirCategory
    rw [hrule, categorizeFiles_lookup resp names name hmem]
    simp [jsOrS, usableGetD_ne_empty resp name]
  · intro resp names name hmem
    unfold performScanCategory
    rw [categorizeFiles_lookup resp names name hmem]
    simp [usableGetD_ne_empty resp name]

/-- C5 witness: the three precedence facts evaluated at concrete
inputs. -/
theorem C5_witness :
    scanDirCategory [("zip", "Junk")] [] "x.zip" "zip" = "Junk" ∧
    scanDirCategory [] (categorizeFiles OracleResp.noText ["x.zip"]) "x.zip"
      (jsExtension "x.zip") =
      (usableOracleAnswer OracleResp.noText "x.zip").getD
        (fallbackFor "x.zip") ∧
    performScanCategory (categorizeFiles OracleResp.noText ["x.zip"])
      "x.zip" =
      (usableOracleAnswer OracleResp.noText "x.zip").getD
        (fallbackFor "x.zip") :=
  ⟨C5_theorem.1 [("zip", "Junk")] [] "x.zip" "zip" "Junk" (by decide)
      (by decide),
   C5_theorem.2.1 [] OracleResp.noText ["x.zip"] "x.zip" (by decide)
      (by decide),
   C5_theorem.2.2 OracleResp.noText ["x.zip"] "x.zip" (by decide)⟩

/-- C5 counterexample: part_000's performScan assigns the oracle's
category to a file even though a custom rule exists for its extension,
so the claimed rule-first precedence fails at that classification
site. -/
theorem C5_counterexample :
    jsExtension "x.zip" = "zip" ∧
    lookupStr [("zip", "Junk")] "zip" = some "Junk" ∧
    performScanCategory
      (categorizeFiles (OracleResp.items [⟨"x.zip", "Documents"⟩]) ["x.zip"])
      "x.zip" = "Documents" ∧
    ("Documents" : String) ≠ "Junk" := by
  refine ⟨by decide, by decide, by decide, by decide⟩

/-! Arithmetic of the progress formula. -/

theorem jsRound100_mono (t : Nat) {a b : Nat} (h : a ≤ b) :
    jsRound100 a t ≤ jsRound100 b t :=
  Nat.div_le_div_right (by omega)

theorem jsRound100_le_100 {a t : Nat} (h : a ≤ t) : jsRound100 a t ≤ 100 := by
  unfold jsRound100
  rcases Nat.eq_zero_or_pos t with ht | ht
  · subst ht
    simp
  · have hlt : (200 * a + t) / (2 * t) < 101 := by
      rw [Nat.div_lt_iff_lt_mul (by omega)]
      omega
    omega

theorem jsRound100_self {t : Nat} (h : 1 ≤ t) : jsRound100 t t = 100 := by
  unfold jsRound100
  exact Nat.div_eq_of_lt_le (by omega) (by omega)

/-! Small takeWhile facts, proved here to keep the development
self-contained. -/

theorem takeWhile_all {α : Type} (p : α → Bool) :
    ∀ l : List α, (∀ a ∈ l, p a = true) → l.takeWhile p = l
  | [], _ => rfl
  | x :: xs, h => by
    have hx : p x = true := h x (List.mem_cons_self x xs)
    rw [List.takeWhile_cons, if_pos hx,
      takeWhile_all p xs fun a ha => h a (List.mem_cons_of_mem x ha)]

theorem mem_takeWhile_pred {α : Type} (p : α → Bool) :
    ∀ (l : List α) (a : α), a ∈ l.takeWhile p → p a = true ∧ a ∈ l
  | [], a, h => by simp [List.takeWhile] at h
  | x :: xs, a, h => by
    by_cases hx : p x = true
    · rw [List.takeWhile_cons, if_pos hx] at h
      rcases List.mem_cons.mp h with h1 | h2
      · exact ⟨h1 ▸ hx, h1 ▸ List.mem_cons_self x xs⟩
      · obtain ⟨hp, hm⟩ := mem_takeWhile_pred p xs a h2
        exact ⟨hp, List.mem_cons_of_mem x hm⟩
    · rw [List.takeWhile_cons, if_neg hx] at h
      exact absurd h (List.not_mem_nil a)

/-! Characterisation of the handleOrganize execution loop. -/

theorem handleOrganizeExec_char (fw : String → Bool) (total : Nat) :
    ∀ (ops : List MoveOp) (fs : FS) (moved : Nat),
    readSourceNames (handleOrganizeExec fw total fs moved ops).trace =
      (ops.take ((ops.takeWhile fun op => !(fw op.name)).length + 1)).map
        (fun op => op.name) ∧
    (handleOrganizeExec fw total fs moved ops).moved =
      moved + (ops.takeWhile fun op => !(fw op.name)).length ∧
    (handleOrganizeExec fw total fs moved ops).failed =
      decide ((ops.takeWhile fun op => !(fw op.name)).length < ops.length) ∧
    (handleOrganizeExec fw total fs moved ops).progress =
      (List.range' (moved + 1)
        (ops.takeWhile fun op => !(fw op.name)).length).map
        (fun k => jsRound100 k total) ∧
    (handleOrganizeExec fw total fs moved ops).fs.source =
      (ops.takeWhile fun op => !(fw op.name)).foldl
        (fun s op => s.erase op.path) fs.source := by
  intro ops
  induction ops with
  | nil =>
    intro fs moved
    refine ⟨rfl, by simp [handleOrganizeExec], by simp [handleOrganizeExec],
      by simp [handleOrganizeExec], by simp [handleOrganizeExec]⟩
  | cons op rest ih =>
    intro fs moved
    by_cases hfw : fw op.name
    · have htw : ((op :: rest).takeWhile fun op => !(fw op.name)) = [] := by
        simp [List.takeWhile_cons, hfw]
      rw [htw]
      have hx : handleOrganizeExec fw total fs moved (op :: rest) =
          ⟨fs, opTrace true op, moved, [], true⟩ := by
        simp [handleOrganizeExec, hfw]
      rw [hx]
      refine ⟨?_, ?_, ?_, ?_, ?_⟩
      · simp [opTrace, readSourceNames, List.take_succ_cons]
      · simp
      · simp
      · simp
      · simp
    · have hfwf : fw op.name = false := by simp [hfw]
      have htw : ((op :: rest).takeWhile fun op => !(fw op.name)) =
          op :: (rest.takeWhile fun op => !(fw op.name)) := by
        simp [List.takeWhile_cons, hfwf]
      obtain ⟨ih1, ih2, ih3, ih4, ih5⟩ :=
        ih ⟨fs.source.erase op.path, fs.dest ++ [(op.category, op.name)]⟩
          (moved + 1)
      rw [htw]
      have hunfold : handleOrganizeExec fw total fs moved (op :: rest) =
          let fs' : FS :=
            ⟨fs.source.erase op.path, fs.dest ++ [(op.category, op.name)]⟩
          let r := handleOrganizeExec fw total fs' (moved + 1) rest
          ⟨r.fs, opTrace false op ++ r.trace, r.moved,
            jsRound100 (moved + 1) total :: r.progress, r.failed⟩ := by
        simp [handleOrganizeExec, hfwf]
      rw [hunfold]
      refine ⟨?_, ?_, ?_, ?_, ?_⟩
      · show readSourceNames (opTrace false op ++ _) = _
        unfold readSourceNames at ih1 ⊢
        rw [List.filterMap_append]
        rw [ih1]
        simp [opTrace, List.take_succ_cons]
      · show (handleOrganizeExec fw total _ (moved + 1) rest).moved = _
        rw [ih2]
        simp [List.length_cons]
        omega
      · show (handleOrganizeExec fw total _ (moved + 1) rest).failed = _
        rw [ih3]
        simp only [List.length_cons]
        exact decide_eq_decide.mpr (by omega)
      · show jsRound100 (moved + 1) total :: _ = _
        rw [ih4]
        rw [List.length_cons, List.range'_succ]
        simp
      · show (handleOrganizeExec fw total _ (moved + 1) rest).fs.source = _
        rw [ih5]
        simp [List.foldl_cons]

theorem mem_foldl_erase (x : String) :
    ∀ (l : List MoveOp) (s : List String), x ∈ s → (∀ q ∈ l, q.path ≠ x) →
      x ∈ l.foldl (fun s q => s.erase q.path) s
  | [], s, hx, _ => hx
  | q :: l, s, hx, hne => by
    rw [List.foldl_cons]
    refine mem_foldl_erase x l _ ?_ fun q' hq' => hne q' (List.mem_cons_of_mem q hq')
    exact (List.mem_erase_of_ne
      (fun e => hne q (List.mem_cons_self q l) e.symm)).mpr hx

theorem movedSafely_exec (fw : String → Bool) (total : Nat) :
    ∀ (ops : List MoveOp) (fs : FS) (moved : Nat) (w c : List String),
    movedSafely w c (handleOrganizeExec fw total fs moved ops).trace = true
  | [], _, _, _, _ => rfl
  | op :: rest, fs, moved, w, c => by
    by_cases hfw : fw op.name
    · simp [handleOrganizeExec, hfw, opTrace, movedSafely]
    · have hfwf : fw op.name = false := by simp [hfw]
      have hrec := movedSafely_exec fw total rest
        ⟨fs.source.erase op.path, fs.dest ++ [(op.category, op.name)]⟩
        (moved + 1) (op.name :: w) (op.name :: c)
      simp [handleOrganizeExec, hfwf, opTrace, movedSafely]
      simpa using hrec

/-! Claim C1: batch failure policy. -/

/-- C1 (corrected): a failing operation halts the batch.  The attempted
operations are exactly the successful prefix plus the first failing
operation; the moved count is the length of the successful prefix; the
failed flag is set exactly when some operation failed. -/
theorem C1_theorem (fw : String → Bool) (fs : FS) (ops : List MoveOp) :
    readSourceNames (handleOrganizeRun fw fs ops).trace =
      (ops.take ((ops.takeWhile fun op => !(fw op.name)).length + 1)).map
        (fun op => op.name) ∧
    (handleOrganizeRun fw fs ops).moved =
      (ops.takeWhile fun op => !(fw op.name)).length ∧
    (handleOrganizeRun fw fs ops).failed =
      decide ((ops.takeWhile fun op => !(fw op.name)).length < ops.length) := by
  obtain ⟨h1, h2, h3, _, _⟩ :=
    handleOrganizeExec_char fw ops.length ops fs 0
  exact ⟨h1, by rw [handleOrganizeRun, h2]; omega, h3⟩

/-- C1 counterexample: in a batch of five operations whose third write
fails, only operations 1-3 are attempted (operations 4 and 5 are never
read), two files are moved, and no summary with attempted five and
succeeded four exists: the moved count the code can report is 2, not
4. -/
theorem C1_counterexample :
    (handleOrganizeRun (fun n => n == "f3")
      ⟨["f1", "f2", "f3", "f4", "f5"], []⟩
      [⟨"f1", "f1", "Documents"⟩, ⟨"f2", "f2", "Documents"⟩,
       ⟨"f3", "f3", "Documents"⟩, ⟨"f4", "f4", "Documents"⟩,
       ⟨"f5", "f5", "Documents"⟩]).moved = 2 ∧
    readSourceNames (handleOrganizeRun (fun n => n == "f3")
      ⟨["f1", "f2", "f3", "f4", "f5"], []⟩
      [⟨"f1", "f1", "Documents"⟩, ⟨"f2", "f2", "Documents"⟩,
       ⟨"f3", "f3", "Documents"⟩, ⟨"f4", "f4", "Documents"⟩,
       ⟨"f5", "f5", "Documents"⟩]).trace = ["f1", "f2", "f3"] ∧
    Ev.readSource "f4" ∉ (handleOrganizeRun (fun n => n == "f3")
      ⟨["f1", "f2", "f3", "f4", "f5"], []⟩
      [⟨"f1", "f1", "Documents"⟩, ⟨"f2", "f2", "Documents"⟩,
       ⟨"f3", "f3", "Documents"⟩, ⟨"f4", "f4", "Documents"⟩,
       ⟨"f5", "f5", "Documents"⟩]).trace ∧
    Ev.readSource "f5" ∉ (handleOrganizeRun (fun n => n == "f3")
      ⟨["f1", "f2", "f3", "f4", "f5"], []⟩
      [⟨"f1", "f1", "Documents"⟩, ⟨"f2", "f2", "Documents"⟩,
       ⟨"f3", "f3", "Documents"⟩, ⟨"f4", "f4", "Documents"⟩,
       ⟨"f5", "f5", "Documents"⟩]).trace ∧
    (2 : Nat) ≠ 4 := by
  refine ⟨by decide, by decide, by decide, by decide, by decide⟩

/-! Claim C4: copy-then-delete ordering. -/

/-- C4 (confirmed): in every batch trace, a source deletion of a name is
always preceded by a successful destination write of that name followed
by a close, and an operation whose write fails leaves its source path in
place in the final state. -/
theorem C4_theorem (fw : String → Bool) (fs : FS) (ops : List MoveOp) :
    movedSafely [] [] (handleOrganizeRun fw fs ops).trace = true ∧
    (∀ op : MoveOp, (ops.map fun o => o.path).Nodup → op ∈ ops →
      fw op.name = true → op.path ∈ fs.source →
      op.path ∈ (handleOrganizeRun fw fs ops).fs.source) := by
  constructor
  · exact movedSafely_exec fw ops.length ops fs 0 [] []
  · intro op hnodup hmem hfail hsrc
    obtain ⟨_, _, _, _, h5⟩ := handleOrganizeExec_char fw ops.length ops fs 0
    rw [handleOrganizeRun, h5]
    refine mem_foldl_erase op.path _ fs.source hsrc ?_
    intro q hq hqe
    obtain ⟨hpred, hqmem⟩ := mem_takeWhile_pred _ ops q hq
    have : q = op := List.inj_on_of_nodup_map hnodup hqmem hmem hqe
    rw [this] at hpred
    simp [hfail] at hpred

/-- C4 witness: a single operation whose write fails leaves the source
file present, and the trace discipline holds on that run. -/
theorem C4_witness :
    movedSafely [] [] (handleOrganizeRun (fun _ => true) ⟨["a.txt"], []⟩
      [⟨"a.txt", "a.txt", "Documents"⟩]).trace = true ∧
    "a.txt" ∈ (handleOrganizeRun (fun _ => true) ⟨["a.txt"], []⟩
      [⟨"a.txt", "a.txt", "Documents"⟩]).fs.source :=
  ⟨(C4_theorem (fun _ => true) ⟨["a.txt"], []⟩
      [⟨"a.txt", "a.txt", "Documents"⟩]).1,
   (C4_theorem (fun _ => true) ⟨["a.txt"], []⟩
      [⟨"a.txt", "a.txt", "Documents"⟩]).2
     ⟨"a.txt", "a.txt", "Documents"⟩ (by decide) (by decide) rfl (by decide)⟩

/-! Claim C7: progress sequence. -/

theorem range'_map_getLast {f : Nat → Nat} :
    ∀ N : Nat, 1 ≤ N → ((List.range' 1 N).map f).getLast? = some (f N) := by
  intro N hN
  obtain ⟨n, rfl⟩ := Nat.exists_eq_add_of_le hN
  rw [Nat.add_comm 1 n, List.range'_concat, List.map_append,
    List.getLast?_append]
  simp [Nat.add_comm]

theorem pairwise_le_map_range' {f : Nat → Nat}
    (hf : ∀ a b : Nat, a ≤ b → f a ≤ f b) (s N : Nat) :
    List.Pairwise (· ≤ ·) ((List.range' s N).map f) := by
  have hp := List.pairwise_lt_range' s N 1 (by omega)
  exact List.Pairwise.map f (fun a b h => hf a b (le_of_lt h)) hp

theorem mem_map_range'_bound {f : Nat → Nat} {s N a : Nat}
    (h : a ∈ (List.range' s N).map f) : ∃ k, s ≤ k ∧ k < s + N ∧ a = f k := by
  obtain ⟨k, hk, rfl⟩ := List.mem_map.mp h
  have := List.mem_range'_1.mp hk
  exact ⟨k, this.1, this.2, rfl⟩

theorem organizeLoopProgress_eq :
    ∀ (files : List FileEntry) (total count : Nat),
    organizeLoopProgress total count files =
      (List.range' (count + 1)
        (files.filter fun f => f.suggestedCategory ≠ unknownCat).length).map
        (fun k => jsRound100 k total)
  | [], _, _ => rfl
  | f :: rest, total, count => by
    by_cases hu : f.suggestedCategory = unknownCat
    · rw [show organizeLoopProgress total count (f :: rest) =
          organizeLoopProgress total count rest by
            simp [organizeLoopProgress, hu]]
      rw [organizeLoopProgress_eq rest total count]
      simp [List.filter_cons, hu]
    · rw [show organizeLoopProgress total count (f :: rest) =
          jsRound100 (count + 1) total ::
            organizeLoopProgress total (count + 1) rest by
            simp [organizeLoopProgress, hu]]
      rw [organizeLoopProgress_eq rest total (count + 1)]
      rw [show (List.filter (fun f => decide (f.suggestedCategory ≠ unknownCat))
          (f :: rest)).length =
          (List.filter (fun f => decide (f.suggestedCategory ≠ unknownCat))
            rest).length + 1 by simp [List.filter_cons, hu]]
      rw [List.range'_succ]
      simp

/-- C7 (corrected): in handleOrganize a failure-free batch of N
operations emits the progress value round of k over N times a hundred
after the k-th operation, the sequence is non-decreasing and ends at
exactly 100; in organizeFiles the divisor is the full file count
including skipped Unknown files, so the in-loop updates are round of k
over the file count, and 100 is only appended by the unconditional
update after the loop; that full sequence is still non-decreasing and
ends at 100. -/
theorem C7_theorem :
    (∀ (fw : String → Bool) (fs : FS) (ops : List MoveOp),
      (∀ op ∈ ops, fw op.name = false) →
      (handleOrganizeRun fw fs ops).progress =
        (List.range' 1 ops.length).map (fun k => jsRound100 k ops.length) ∧
      List.Pairwise (· ≤ ·) (handleOrganizeRun fw fs ops).progress ∧
      (ops ≠ [] →
        (handleOrganizeRun fw fs ops).progress.getLast? = some 100)) ∧
    (∀ files : List FileEntry,
      organizeLoopProgress files.length 0 files =
        (List.range' 1
          (files.filter fun f => f.suggestedCategory ≠ unknownCat).length).map
          (fun k => jsRound100 k files.length) ∧
      List.Pairwise (· ≤ ·) (organizeProgressTrace files) ∧
      (organizeProgressTrace files).getLast? = some 100) := by
  constructor
  · intro fw fs ops hok
    have htw : (ops.takeWhile fun op => !(fw op.name)) = ops :=
      takeWhile_all _ ops (by intro a ha; simp [hok a ha])
    obtain ⟨_, _, _, h4, _⟩ :=
      handleOrganizeExec_char fw ops.length ops fs 0
    have hprog : (handleOrganizeRun fw fs ops).progress =
        (List.range' 1 ops.length).map (fun k => jsRound100 k ops.length) := by
      rw [handleOrganizeRun, h4, htw]
    refine ⟨hprog, ?_, ?_⟩
    · rw [hprog]
      exact pairwise_le_map_range' (fun a b h => jsRound100_mono _ h) 1 _
    · intro hne
      rw [hprog, range'_map_getLast ops.length
        (by cases ops with | nil => exact absurd rfl hne | cons a l => simp)]
      rw [jsRound100_self (by cases ops with
        | nil => exact absurd rfl hne | cons a l => simp)]
  · intro files
    have hloop := organizeLoopProgress_eq files files.length 0
    refine ⟨hloop, ?_, ?_⟩
    · unfold organizeProgressTrace
      rw [hloop, List.pairwise_append]
      refine ⟨pairwise_le_map_range' (fun a b h => jsRound100_mono _ h) 1 _,
        List.pairwise_singleton _ _, ?_⟩
      intro a ha b hb
      rw [List.mem_singleton.mp hb]
      obtain ⟨k, hk1, hk2, rfl⟩ := mem_map_range'_bound ha
      refine jsRound100_le_100 ?_
      have hfle := List.length_filter_le
        (fun f => decide (f.suggestedCategory ≠ unknownCat)) files
      omega
    · unfold organizeProgressTrace
      rw [List.getLast?_append]
      simp

/-- C7 witness: the handleOrganize facts at a concrete failure-free
two-operation batch, and the organizeFiles facts at a concrete file
list containing an Unknown file. -/
theorem C7_witness :
    (handleOrganizeRun (fun _ => false) ⟨["a", "b"], []⟩
      [⟨"a", "a", "Documents"⟩, ⟨"b", "b", "Images"⟩]).progress =
      (List.range' 1 2).map (fun k => jsRound100 k 2) ∧
    (handleOrganizeRun (fun _ => false) ⟨["a", "b"], []⟩
      [⟨"a", "a", "Documents"⟩, ⟨"b", "b", "Images"⟩]).progress.getLast? =
      some 100 ∧
    List.Pairwise (· ≤ ·) (organizeProgressTrace
      [⟨"a.pdf", 1, 0, "pdf", "Documents"⟩,
       ⟨"b.xyz", 2, 0, "xyz", "Unknown"⟩]) ∧
    (organizeProgressTrace
      [⟨"a.pdf", 1, 0, "pdf", "Documents"⟩,
       ⟨"b.xyz", 2, 0, "xyz", "Unknown"⟩]).getLast? = some 100 :=
  ⟨(C7_theorem.1 (fun _ => false) ⟨["a", "b"], []⟩
      [⟨"a", "a", "Documents"⟩, ⟨"b", "b", "Images"⟩]
      (by intro op h; rfl)).1,
   (C7_theorem.1 (fun _ => false) ⟨["a", "b"], []⟩
      [⟨"a", "a", "Documents"⟩, ⟨"b", "b", "Images"⟩]
      (by intro op h; rfl)).2.2 (by simp),
   (C7_theorem.2 [⟨"a.pdf", 1, 0, "pdf", "Documents"⟩,
      ⟨"b.xyz", 2, 0, "xyz", "Unknown"⟩]).2.1,
   (C7_theorem.2 [⟨"a.pdf", 1, 0, "pdf", "Documents"⟩,
      ⟨"b.xyz", 2, 0, "xyz", "Unknown"⟩]).2.2⟩

/-- C7 counterexample: with two files of which one is Unknown, the batch
plans exactly one operation, yet the progress shown after that first and
last completed operation is 50, not round of one over one times a
hundred, which is 100: the divisor is the file count, not the planned
operation count. -/
theorem C7_counterexample :
    (List.filter (fun f => f.suggestedCategory ≠ unknownCat)
      ([⟨"a.pdf", 1, 0, "pdf", "Documents"⟩,
        ⟨"b.xyz", 2, 0, "xyz", "Unknown"⟩] : List FileEntry)).length = 1 ∧
    organizeLoopProgress
      ([⟨"a.pdf", 1, 0, "pdf", "Documents"⟩,
        ⟨"b.xyz", 2, 0, "xyz", "Unknown"⟩] : List FileEntry).length 0
      [⟨"a.pdf", 1, 0, "pdf", "Documents"⟩,
       ⟨"b.xyz", 2, 0, "xyz", "Unknown"⟩] = [50] ∧
    jsRound100 1 1 = 100 ∧ (50 : Nat) ≠ 100 := by
  refine ⟨by decide, by decide, by decide, by decide⟩

/-! Claim C8: recursive traversal with exclusions. -/

theorem scanList_cons (ex : List String) (cur : String) (e : FSEntry)
    (es : List FSEntry) :
    scanList ex cur (e :: es) =
      (match e with
       | .file n sz lm =>
         if ex.contains n then [] else
           [⟨n, sz, lm, jsExtension n, unknownCat, joinPath cur n⟩]
       | .dir d sub =>
         if ex.contains d then [] else scanList ex (joinPath cur d) sub) ++
      scanList ex cur es := by
  cases e <;> simp [scanList]

theorem scanList_nil (ex : List String) (cur : String) :
    scanList ex cur [] = [] := by
  simp [scanList]

theorem reachable_cons {ex : List String} {e : FSEntry} {es : List FSEntry}
    {dirs : List String} {n : String} {sz lm : Nat}
    (h : ReachableFile ex es dirs n sz lm) :
    ReachableFile ex (e :: es) dirs n sz lm := by
  cases h with
  | here hmem hex => exact .here (List.mem_cons_of_mem e hmem) hex
  | there hmem hex hrec => exact .there (List.mem_cons_of_mem e hmem) hex hrec

theorem mem_scanList : ∀ (es : List FSEntry) (ex : List String) (cur : String)
    (r : FileMetadata), r ∈ scanList ex cur es →
    ∃ dirs n sz lm, ReachableFile ex es dirs n sz lm ∧
      r = ⟨n, sz, lm, jsExtension n, unknownCat, pathOf cur dirs n⟩
  | [], ex, cur, _, h => by
    rw [scanList_nil] at h
    exact absurd h (List.not_mem_nil _)
  | .file n sz lm :: es, ex, cur, r, h => by
    rw [scanList_cons] at h
    rcases List.mem_append.mp h with h1 | h2
    · replace h1 : r ∈ (if ex.contains n = true then ([] : List FileMetadata)
        else [⟨n, sz, lm, jsExtension n, unknownCat, joinPath cur n⟩]) := h1
      by_cases hex : ex.contains n = true
      · rw [if_pos hex] at h1
        exact absurd h1 (List.not_mem_nil _)
      · have hexf : ex.contains n = false := by simpa using hex
        rw [if_neg hex, List.mem_singleton] at h1
        exact ⟨[], n, sz, lm, .here (List.mem_cons_self _ _) hexf, h1⟩
    · obtain ⟨dirs, n', sz', lm', hreach, hr⟩ := mem_scanList es ex cur r h2
      exact ⟨dirs, n', sz', lm', reachable_cons hreach, hr⟩
  | .dir d sub :: es, ex, cur, r, h => by
    rw [scanList_cons] at h
    rcases List.mem_append.mp h with h1 | h2
    · replace h1 : r ∈ (if ex.contains d = true then ([] : List FileMetadata)
        else scanList ex (joinPath cur d) sub) := h1
      by_cases hex : ex.contains d = true
      · rw [if_pos hex] at h1
        exact absurd h1 (List.not_mem_nil _)
      · have hexf : ex.contains d = false := by simpa using hex
        rw [if_neg hex] at h1
        obtain ⟨dirs, n', sz', lm', hreach, hr⟩ :=
          mem_scanList sub ex (joinPath cur d) r h1
        exact ⟨d :: dirs, n', sz', lm',
          .there (List.mem_cons_self _ _) hexf hreach, hr⟩
    · obtain ⟨dirs, n', sz', lm', hreach, hr⟩ := mem_scanList es ex cur r h2
      exact ⟨dirs, n', sz', lm', reachable_cons hreach, hr⟩

theorem scanList_complete {ex : List String} {es : List FSEntry}
    {dirs : List String} {n : String} {sz lm : Nat}
    (h : ReachableFile ex es dirs n sz lm) : ∀ cur : String,
    (⟨n, sz, lm, jsExtension n, unknownCat, pathOf cur dirs n⟩ : FileMetadata) ∈
      scanList ex cur es := by
  induction h with
  | @here es n sz lm hmem hex =>
    intro cur
    induction hmem with
    | head as =>
      rw [scanList_cons]
      refine List.mem_append_left _ ?_
      show _ ∈ (if ex.contains n = true then ([] : List FileMetadata)
        else [⟨n, sz, lm, jsExtension n, unknownCat, joinPath cur n⟩])
      rw [if_neg (by simp only [hex]; exact Bool.false_ne_true)]
      exact List.mem_singleton.mpr rfl
    | tail b _ ih =>
      rw [scanList_cons]
      exact List.mem_append_right _ ih
  | @there es d sub p n sz lm hmem hex _ ih =>
    intro cur
    induction hmem with
    | head as =>
      rw [scanList_cons]
      refine List.mem_append_left _ ?_
      show _ ∈ (if ex.contains d = true then ([] : List FileMetadata)
        else scanList ex (joinPath cur d) sub)
      rw [if_neg (by simp only [hex]; exact Bool.false_ne_true)]
      exact ih (joinPath cur d)
    | tail b _ ih2 =>
      rw [scanList_cons]
      exact List.mem_append_right _ ih2

theorem reachable_excluded {ex : List String} :
    ∀ {es : List FSEntry} {dirs : List String} {n : String} {sz lm : Nat},
    ReachableFile ex es dirs n sz lm →
    (∀ d ∈ dirs, ex.contains d = false) ∧ ex.contains n = false := by
  intro es dirs n sz lm h
  induction h with
  | here hmem hex => exact ⟨by intro d hd; exact absurd hd (List.not_mem_nil d), hex⟩
  | there hmem hex _ ih =>
    refine ⟨?_, ih.2⟩
    intro d' hd'
    rcases List.mem_cons.mp hd' with h1 | h2
    · rw [h1]; exact hex
    · exact ih.1 d' h2

/-- C8 (corrected): part_000's recursive scan produces a record exactly
for every file reachable without passing through an excluded name, at
any depth, with its path assembled from the traversed directory names,
and in particular every produced record's path decomposes into segments
none of which is excluded.  (The non-recursive App.tsx scanDirectory is
the counterexample.) -/
theorem C8_theorem (ex : List String) (es : List FSEntry) (r : FileMetadata) :
    (r ∈ scanList ex "" es ↔
      ∃ dirs n sz lm, ReachableFile ex es dirs n sz lm ∧
        r = ⟨n, sz, lm, jsExtension n, unknownCat, pathOf "" dirs n⟩) ∧
    (r ∈ scanList ex "" es →
      ∃ dirs, r.path = pathOf "" dirs r.name ∧
        (∀ d ∈ dirs, ex.contains d = false) ∧ ex.contains r.name = false) := by
  constructor
  · constructor
    · exact fun h => mem_scanList es ex "" r h
    · rintro ⟨dirs, n, sz, lm, hreach, rfl⟩
      exact scanList_complete hreach ""
  · intro h
    obtain ⟨dirs, n, sz, lm, hreach, hr⟩ := mem_scanList es ex "" r h
    obtain ⟨hdirs, hname⟩ := reachable_excluded hreach
    subst hr
    exact ⟨dirs, rfl, hdirs, hname⟩

/-- C8 witness: on a one-directory tree with the default exclusion set,
the scanned record's path decomposes into non-excluded segments. -/
theorem C8_witness :
    ∃ dirs,
      (FileMetadata.path ⟨"a.pdf", 3, 5, "pdf", "Unknown", "docs/a.pdf"⟩) =
        pathOf "" dirs
          (FileMetadata.name ⟨"a.pdf", 3, 5, "pdf", "Unknown", "docs/a.pdf"⟩) ∧
      (∀ d ∈ dirs,
        (["node_modules", ".git", "tmp", ".DS_Store", "AppData"] :
          List String).contains d = false) ∧
      (["node_modules", ".git", "tmp", ".DS_Store", "AppData"] :
        List String).contains
          (FileMetadata.name ⟨"a.pdf", 3, 5, "pdf", "Unknown", "docs/a.pdf"⟩) =
        false :=
  ( C8_theorem ["node_modules", ".git", "tmp", ".DS_Store", "AppData"]
    [.dir "docs" [.file "a.pdf" 3 5]]
    ⟨"a.pdf", 3, 5, "pdf", "Unknown", "docs/a.pdf"⟩).2
    (by simp only [scanList_cons, scanList_nil]; decide)

/-- C8 counterexample: the App.tsx scanDirectory produces no record for
a nested file that is reachable without touching any excluded name,
while part_000's recursive scan does produce it. -/
theorem C8_counterexample :
    scanDirectoryModel [.dir "docs" [.file "a.pdf" 3 5]] = [] ∧
    ReachableFile ["node_modules", ".git", "tmp", ".DS_Store", "AppData"]
      [.dir "docs" [.file "a.pdf" 3 5]] ["docs"] "a.pdf" 3 5 ∧
    scanList ["node_modules", ".git", "tmp", ".DS_Store", "AppData"] ""
      [.dir "docs" [.file "a.pdf" 3 5]] =
      [⟨"a.pdf", 3, 5, "pdf", "Unknown", "docs/a.pdf"⟩] :=
  ⟨rfl,
   .there (List.mem_singleton.mpr rfl) (by decide)
     (.here (List.mem_singleton.mpr rfl) (by decide)),
   by simp only [scanList_cons, scanList_nil]; decide⟩

/-! Claim C9: size-based duplicate groups. -/

theorem mem_duplicateGroups {files : List FileMetadata} {g : DuplicateGroup} :
    g ∈ duplicateGroups files ↔
      ∃ s : Nat, 1 < (files.filter fun f => f.size = s).length ∧
        g = ⟨"size-" ++ toString s, files.filter fun f => f.size = s, false⟩ := by
  unfold duplicateGroups
  rw [List.mem_filterMap]
  constructor
  · rintro ⟨s, _, hfs⟩
    by_cases hlen : 1 < (files.filter fun f => f.size = s).length
    · rw [if_pos hlen] at hfs
      exact ⟨s, hlen, (Option.some.inj hfs).symm⟩
    · rw [if_neg hlen] at hfs
      exact absurd hfs (Option.noConfusion)
  · rintro ⟨s, hlen, rfl⟩
    refine ⟨s, ?_, by rw [if_pos hlen]⟩
    have hpos : 0 < (files.filter fun f => f.size = s).length := by omega
    obtain ⟨a, ha⟩ := List.exists_mem_of_length_pos hpos
    obtain ⟨hmem, hsize⟩ := List.mem_filter.mp ha
    rw [List.mem_insertionSort, List.mem_dedup]
    exact List.mem_map.mpr ⟨a, hmem, by simpa using hsize⟩

theorem duplicateGroups_nodup (files : List FileMetadata) :
    (duplicateGroups files).Nodup := by
  unfold duplicateGroups
  refine List.Nodup.filterMap ?_ ?_
  · intro s s' g hg hg'
    rw [Option.mem_def] at hg hg'
    by_cases hl : 1 < (files.filter fun f => f.size = s).length
    · rw [if_pos hl] at hg
      by_cases hl' : 1 < (files.filter fun f => f.size = s').length
      · rw [if_pos hl'] at hg'
        have hfiles : (files.filter fun f => f.size = s) =
            (files.filter fun f => f.size = s') := by
          have e1 := Option.some.inj hg
          have e2 := Option.some.inj hg'
          have := e1.trans e2.symm
          exact congrArg DuplicateGroup.files this
        have hpos : 0 < (files.filter fun f => f.size = s).length := by omega
        obtain ⟨a, ha⟩ := List.exists_mem_of_length_pos hpos
        have ha' := ha
        rw [hfiles] at ha'
        have h1 := List.mem_filter.mp ha
        have h2 := List.mem_filter.mp ha'
        have e1 : a.size = s := by simpa using h1.2
        have e2 : a.size = s' := by simpa using h2.2
        omega
      · rw [if_neg hl'] at hg'
        exact absurd hg' (Option.noConfusion)
    · rw [if_neg hl] at hg
      exact absurd hg (Option.noConfusion)
  · have hperm := (List.perm_insertionSort (· ≤ ·)
      (files.map (fun f => f.size)).dedup).symm
    exact hperm.nodup (List.nodup_dedup _)

/-- C9 (confirmed): one DuplicateGroup per size shared by at least two
files, with id size-n, the members in input order and resolved false;
exactly one group per such size; a file of unique size is in no group;
and the concrete size profile 100,100,200,300,300,300 yields exactly a
2-member and a 3-member group with the 200-size file in neither. -/
theorem C9_theorem :
    (∀ (files : List FileMetadata) (g : DuplicateGroup),
      g ∈ duplicateGroups files ↔
        ∃ s : Nat, 1 < (files.filter fun f => f.size = s).length ∧
          g = ⟨"size-" ++ toString s, files.filter fun f => f.size = s,
            false⟩) ∧
    (∀ (files : List FileMetadata) (s : Nat),
      (duplicateGroups files).count
        ⟨"size-" ++ toString s, files.filter fun f => f.size = s, false⟩ =
        if 1 < (files.filter fun f => f.size = s).length then 1 else 0) ∧
    (∀ (files : List FileMetadata) (f : FileMetadata) (g : DuplicateGroup),
      g ∈ duplicateGroups files → f ∈ g.files →
        1 < (files.filter fun x => x.size = f.size).length) ∧
    ((duplicateGroups
        [⟨"a", 100, 0, "", "Unknown", "a"⟩, ⟨"b", 100, 0, "", "Unknown", "b"⟩,
         ⟨"c", 200, 0, "", "Unknown", "c"⟩, ⟨"d", 300, 0, "", "Unknown", "d"⟩,
         ⟨"e", 300, 0, "", "Unknown", "e"⟩,
         ⟨"f", 300, 0, "", "Unknown", "f"⟩]).map
        (fun g => (g.id, g.files.length, g.resolved)) =
      [("size-100", 2, false), ("size-300", 3, false)] ∧
      ∀ g ∈ duplicateGroups
        [⟨"a", 100, 0, "", "Unknown", "a"⟩, ⟨"b", 100, 0, "", "Unknown", "b"⟩,
         ⟨"c", 200, 0, "", "Unknown", "c"⟩, ⟨"d", 300, 0, "", "Unknown", "d"⟩,
         ⟨"e", 300, 0, "", "Unknown", "e"⟩,
         ⟨"f", 300, 0, "", "Unknown", "f"⟩],
        (⟨"c", 200, 0, "", "Unknown", "c"⟩ : FileMetadata) ∉ g.files) := by
  refine ⟨fun files g => mem_duplicateGroups, ?_, ?_, by decide, by decide⟩
  · intro files s
    by_cases hlen : 1 < (files.filter fun f => f.size = s).length
    · rw [if_pos hlen]
      exact List.count_eq_one_of_mem (duplicateGroups_nodup files)
        (mem_duplicateGroups.mpr ⟨s, hlen, rfl⟩)
    · rw [if_neg hlen]
      rw [List.count_eq_zero]
      intro hmem
      obtain ⟨s', hlen', heq⟩ := mem_duplicateGroups.mp hmem
      have hfiles : (files.filter fun f => f.size = s) =
          (files.filter fun f => f.size = s') :=
        congrArg DuplicateGroup.files heq
      rw [hfiles] at hlen
      exact hlen hlen'
  · intro files f g hg hf
    obtain ⟨s, hlen, rfl⟩ := mem_duplicateGroups.mp hg
    have := List.mem_filter.mp hf
    have hsize : f.size = s := by simpa using this.2
    rw [hsize]
    exact hlen

/-- C9 witness: the exactly-one-group and unique-size facts applied at
the concrete size profile. -/
theorem C9_witness :
    (duplicateGroups
      [⟨"a", 100, 0, "", "Unknown", "a"⟩, ⟨"b", 100, 0, "", "Unknown", "b"⟩,
       ⟨"c", 200, 0, "", "Unknown", "c"⟩]).count
      ⟨"size-" ++ toString 100,
       List.filter (fun f => f.size = 100)
         [⟨"a", 100, 0, "", "Unknown", "a"⟩, ⟨"b", 100, 0, "", "Unknown", "b"⟩,
          ⟨"c", 200, 0, "", "Unknown", "c"⟩], false⟩ =
      (if 1 < (List.filter (fun f => f.size = 100)
        [⟨"a", 100, 0, "", "Unknown", "a"⟩, ⟨"b", 100, 0, "", "Unknown", "b"⟩,
         (⟨"c", 200, 0, "", "Unknown", "c"⟩ : FileMetadata)]).length
      then 1 else 0) ∧
    1 < (List.filter
      (fun x => x.size = FileMetadata.size ⟨"a", 100, 0, "", "Unknown", "a"⟩)
      [⟨"a", 100, 0, "", "Unknown", "a"⟩, ⟨"b", 100, 0, "", "Unknown", "b"⟩,
       (⟨"c", 200, 0, "", "Unknown", "c"⟩ : FileMetadata)]).length :=
  ⟨C9_theorem.2.1
    [⟨"a", 100, 0, "", "Unknown", "a"⟩, ⟨"b", 100, 0, "", "Unknown", "b"⟩,
     ⟨"c", 200, 0, "", "Unknown", "c"⟩] 100,
   C9_theorem.2.2.1
    [⟨"a", 100, 0, "", "Unknown", "a"⟩, ⟨"b", 100, 0, "", "Unknown", "b"⟩,
     ⟨"c", 200, 0, "", "Unknown", "c"⟩]
    ⟨"a", 100, 0, "", "Unknown", "a"⟩
    ⟨"size-" ++ toString 100,
     List.filter (fun f => f.size = 100)
       [⟨"a", 100, 0, "", "Unknown", "a"⟩, ⟨"b", 100, 0, "", "Unknown", "b"⟩,
        ⟨"c", 200, 0, "", "Unknown", "c"⟩], false⟩
    (by decide) (by decide)⟩

end DownloadTidy
